import Mathlib

/-!
Verification of the reward-scoring module
(verl/utils/reward_score/think_answer_format.py).

Strings are modelled as Lean lists of characters. The Python regular
expressions are embedded by their matching semantics:

- a boolean anchored match (re.match with a pattern ending in a
  dollar-anchor, DOTALL) holds exactly when the string decomposes into the
  pattern's pieces; check_format enumerates all decompositions;
- re.search for a literal followed by a lazy group finds the leftmost
  occurrence; splitFirst splits at the leftmost occurrence of a literal;
- the un-DOTALLed lazy search for a brace-boxed group is findBoxed: at each
  occurrence of the opening literal the scan stops at the first closing
  brace (success) or at a newline or the end (failure, resume at a later
  occurrence).

Python float reward weights are modelled as rationals; the scores involved
(0, the two weights, and their sum) are exact in both arithmetics.
-/

/-- The set of characters Python treats as whitespace, both for the
regex class backslash-s on str and for str.strip / str.isspace
(Py_UNICODE_ISSPACE): U+0009-U+000D, U+001C-U+001F, space, U+0085, U+00A0,
U+1680, U+2000-U+200A, U+2028, U+2029, U+202F, U+205F, U+3000. -/
def isPySpace (c : Char) : Bool :=
  let n := c.toNat
  (9 ≤ n && n ≤ 13) || n == 32 || (28 ≤ n && n ≤ 31) ||
  n == 0x85 || n == 0xa0 || n == 0x1680 ||
  (0x2000 ≤ n && n ≤ 0x200a) || n == 0x2028 || n == 0x2029 ||
  n == 0x202f || n == 0x205f || n == 0x3000

/-- Python str.strip(): remove leading and trailing whitespace. -/
def pyStrip (s : List Char) : List Char :=
  ((s.dropWhile isPySpace).reverse.dropWhile isPySpace).reverse

/-- The literal closing-think marker. -/
def thinkClose : List Char := ['<', '/', 't', 'h', 'i', 'n', 'k', '>']

/-- The literal answer-open marker. -/
def answerOpen : List Char := ['<', 'a', 'n', 's', 'w', 'e', 'r', '>']

/-- The literal answer-close marker. -/
def answerClose : List Char := ['<', '/', 'a', 'n', 's', 'w', 'e', 'r', '>']

/-- The literal opening of the boxed-answer notation (backslash, b, o, x,
e, d, opening brace). -/
def boxedOpen : List Char := ['\\', 'b', 'o', 'x', 'e', 'd', '\x7b']

/-- All ways to split a list into a prefix and a suffix. -/
def allSplits : List Char → List (List Char × List Char)
  | [] => [([], [])]
  | c :: cs => ([], c :: cs) :: (allSplits cs).map (fun p => (c :: p.1, p.2))

/-- check_format: bool(re.match(r'^.*</think>\s*<answer>.*</answer>\s*$',
response_str, re.DOTALL)). With DOTALL the dot crosses newlines, so the
anchored pattern matches exactly when the string decomposes into: anything,
the closing-think marker, whitespace, the answer-open marker, anything, the
answer-close marker, trailing whitespace. The decomposition is decided by
enumerating splits. -/
def check_format (response_str : List Char) : Bool :=
  (allSplits response_str).any fun p =>
    thinkClose.isPrefixOf p.2 &&
    ((allSplits (p.2.drop thinkClose.length)).any fun q =>
      q.1.all isPySpace &&
      (answerOpen.isPrefixOf q.2 &&
        ((allSplits (q.2.drop answerOpen.length)).any fun t =>
          answerClose.isPrefixOf t.2 &&
          (t.2.drop answerClose.length).all isPySpace)))

/-- Split a list at the leftmost occurrence of the literal pattern pat:
returns (part before the occurrence, part after it), or none when pat does
not occur. This is the search step of re.search for a literal prefix. -/
def splitFirst (pat : List Char) : List Char → Option (List Char × List Char)
  | [] => if pat.isPrefixOf ([] : List Char) then some ([], []) else none
  | c :: cs =>
    if pat.isPrefixOf (c :: cs) then some ([], (c :: cs).drop pat.length)
    else (splitFirst pat cs).map fun p => (c :: p.1, p.2)

/-- extract_answer: re.search(r'<answer>(.*?)</answer>', response_str,
re.DOTALL), returning group(1).strip() on a match and None otherwise. The
leftmost match starts at the first answer-open marker, and the lazy group
ends at the first answer-close marker after it. -/
def extract_answer (response_str : List Char) : Option (List Char) :=
  match splitFirst answerOpen response_str with
  | none => none
  | some (_, rest) =>
    match splitFirst answerClose rest with
    | none => none
    | some (content, _) => some (pyStrip content)

/-- The character class removed by normalize_answer's re.sub: dollar sign,
comma, and whitespace. -/
def removedChar (c : Char) : Bool := c == '$' || c == ',' || isPySpace c

/-- Characters the lazy group of the boxed-answer regex can consume: the
pattern has no DOTALL, so the dot refuses newlines, and the lazy group
stops before the first closing brace. -/
def boxedBody (c : Char) : Bool := !(c == '\x7d') && !(c == '\n')

/-- re.search(r'\\boxed\x7b(.*?)\x7d', answer) without DOTALL: at each
occurrence of the opening literal, scan forward; reaching a closing brace
yields the group, reaching a newline or the end fails this occurrence and
the search resumes at the next one. Returns the group of the leftmost
successful occurrence. -/
def findBoxed : List Char → Option (List Char)
  | [] => none
  | c :: cs =>
    if boxedOpen.isPrefixOf (c :: cs) then
      match ((c :: cs).drop boxedOpen.length).dropWhile boxedBody with
      | d :: _ =>
        if d = '\x7d' then some (((c :: cs).drop boxedOpen.length).takeWhile boxedBody)
        else findBoxed cs
      | [] => findBoxed cs
    else findBoxed cs

/-- normalize_answer: strip, remove every dollar sign, comma and whitespace
character, then if a boxed-answer notation with a closing brace is present
replace the whole string by the first lazily-matched braced content. -/
def normalize_answer (answer : List Char) : List Char :=
  let answer1 := pyStrip answer
  let answer2 := answer1.filter fun c => !(removedChar c)
  match findBoxed answer2 with
  | some content => content
  | none => answer2

/-- compute_score: start from zero, add format_reward when check_format
passes, extract the answer and add correct_reward when the normalized
answer equals the normalized ground truth. The Python defaults are
format_reward = correct_reward = 0.5. -/
def compute_score (solution_str ground_truth : List Char)
    (format_reward correct_reward : ℚ) : ℚ :=
  let total_score : ℚ := 0
  let total_score :=
    if check_format solution_str then total_score + format_reward else total_score
  match extract_answer solution_str with
  | some answer_content =>
    if normalize_answer answer_content = normalize_answer ground_truth then
      total_score + correct_reward
    else total_score
  | none => total_score

/-! ### Helper lemmas about the split enumeration and literal search -/

lemma mem_allSplits (s a b : List Char) : (a, b) ∈ allSplits s ↔ s = a ++ b := by
  induction s generalizing a b with
  | nil =>
    simp only [allSplits, List.mem_singleton, Prod.mk.injEq]
    constructor
    · rintro ⟨rfl, rfl⟩
      rfl
    · intro h
      exact List.append_eq_nil.mp h.symm
  | cons c cs ih =>
    simp only [allSplits, List.mem_cons, List.mem_map, Prod.mk.injEq]
    constructor
    · rintro (⟨rfl, rfl⟩ | ⟨⟨p1, p2⟩, hp, h1, h2⟩)
      · rfl
      · subst h1
        subst h2
        have := (ih p1 p2).mp hp
        simp [this]
    · intro h
      cases a with
      | nil =>
        left
        exact ⟨rfl, by simpa using h.symm⟩
      | cons a0 as =>
        right
        have h1 : c = a0 ∧ cs = as ++ b := by
          simpa using h
        exact ⟨(as, b), (ih as b).mpr h1.2, by rw [h1.1], rfl⟩

lemma isPrefixOf_destruct {l r : List Char} (h : l.isPrefixOf r = true) :
    ∃ t, r = l ++ t := by
  obtain ⟨t, ht⟩ := List.isPrefixOf_iff_prefix.mp h
  exact ⟨t, ht.symm⟩

lemma isPrefixOf_append_self (l t : List Char) : l.isPrefixOf (l ++ t) = true :=
  List.isPrefixOf_iff_prefix.mpr (List.prefix_append l t)

/-- The anchored-match semantics of check_format: it accepts exactly the
strings that decompose as reasoning, closing-think marker, whitespace,
answer-open marker, answer body, answer-close marker, trailing
whitespace. -/
lemma check_format_eq_true_iff (s : List Char) :
    check_format s = true ↔
    ∃ a w1 b w2,
      s = a ++ thinkClose ++ w1 ++ answerOpen ++ b ++ answerClose ++ w2 ∧
      w1.all isPySpace = true ∧ w2.all isPySpace = true := by
  unfold check_format
  rw [List.any_eq_true]
  constructor
  · rintro ⟨⟨a, r⟩, hmem, hcond⟩
    rw [mem_allSplits] at hmem
    rw [Bool.and_eq_true] at hcond
    obtain ⟨hpre, hrest⟩ := hcond
    obtain ⟨t, rfl⟩ := isPrefixOf_destruct hpre
    rw [List.drop_left, List.any_eq_true] at hrest
    obtain ⟨⟨w1, r2⟩, hmem2, hcond2⟩ := hrest
    rw [mem_allSplits] at hmem2
    rw [Bool.and_eq_true, Bool.and_eq_true] at hcond2
    obtain ⟨hw1, hpre2, hrest2⟩ := hcond2
    obtain ⟨t2, rfl⟩ := isPrefixOf_destruct hpre2
    rw [List.drop_left, List.any_eq_true] at hrest2
    obtain ⟨⟨b, r3⟩, hmem3, hcond3⟩ := hrest2
    rw [mem_allSplits] at hmem3
    rw [Bool.and_eq_true] at hcond3
    obtain ⟨hpre3, hw2⟩ := hcond3
    obtain ⟨t3, rfl⟩ := isPrefixOf_destruct hpre3
    rw [List.drop_left] at hw2
    refine ⟨a, w1, b, t3, ?_, hw1, hw2⟩
    subst hmem
    subst hmem2
    subst hmem3
    simp [List.append_assoc]
  · rintro ⟨a, w1, b, w2, rfl, h1, h2⟩
    refine ⟨(a, thinkClose ++ (w1 ++ (answerOpen ++ (b ++ (answerClose ++ w2))))), ?_, ?_⟩
    · rw [mem_allSplits]
      simp [List.append_assoc]
    · rw [Bool.and_eq_true]
      refine ⟨isPrefixOf_append_self _ _, ?_⟩
      rw [List.drop_left, List.any_eq_true]
      refine ⟨(w1, answerOpen ++ (b ++ (answerClose ++ w2))), ?_, ?_⟩
      · rw [mem_allSplits]
      · rw [Bool.and_eq_true]
        refine ⟨h1, ?_⟩
        rw [Bool.and_eq_true]
        refine ⟨isPrefixOf_append_self _ _, ?_⟩
        rw [List.drop_left, List.any_eq_true]
        refine ⟨(b, answerClose ++ w2), ?_, ?_⟩
        · rw [mem_allSplits]
        · rw [Bool.and_eq_true]
          exact ⟨isPrefixOf_append_self _ _, by rw [List.drop_left]; exact h2⟩

lemma splitFirst_eq_none_iff (pat s : List Char) :
    splitFirst pat s = none ↔ ¬ ∃ a b, s = a ++ pat ++ b := by
  induction s with
  | nil =>
    simp only [splitFirst]
    split_ifs with hp
    · have hpat : pat = [] := by
        cases pat with
        | nil => rfl
        | cons p ps => simp [List.isPrefixOf] at hp
      subst hpat
      have hex : ∃ a b, ([] : List Char) = a ++ [] ++ b := ⟨[], [], rfl⟩
      simp [hex]
    · have hne : pat ≠ [] := by
        rintro rfl
        simp [List.isPrefixOf] at hp
      constructor
      · rintro - ⟨a, b, hab⟩
        have h2 := List.append_eq_nil.mp hab.symm
        have h3 := List.append_eq_nil.mp h2.1
        exact hne h3.2
      · intro _
        rfl
  | cons c cs ih =>
    simp only [splitFirst]
    split_ifs with hp
    · obtain ⟨t, ht⟩ := isPrefixOf_destruct hp
      have hex : ∃ a b, c :: cs = a ++ (pat ++ b) := ⟨[], t, by simpa using ht⟩
      simp [hex]
    · rw [Option.map_eq_none', ih]
      constructor
      · rintro hno ⟨a, b, hab⟩
        cases a with
        | nil =>
          apply hp
          rw [show c :: cs = pat ++ b by simpa using hab]
          exact isPrefixOf_append_self _ _
        | cons a0 as =>
          have h2 : c = a0 ∧ cs = as ++ (pat ++ b) := by simpa using hab
          exact hno ⟨as, b, by rw [h2.2, List.append_assoc]⟩
      · rintro hno ⟨a, b, hab⟩
        exact hno ⟨c :: a, b, by simp [hab]⟩

lemma splitFirst_eq_some {pat s a b : List Char}
    (h : splitFirst pat s = some (a, b)) :
    s = a ++ pat ++ b ∧ ∀ a' b', s = a' ++ pat ++ b' → a.length ≤ a'.length := by
  induction s generalizing a b with
  | nil =>
    simp only [splitFirst] at h
    split_ifs at h with hp
    · have hpat : pat = [] := by
        cases pat with
        | nil => rfl
        | cons p ps => simp [List.isPrefixOf] at hp
      have h1 := Option.some.inj h
      injection h1 with h2 h3
      subst hpat
      refine ⟨by simp [← h2, ← h3], ?_⟩
      intro a' b' h'
      rw [← h2]
      exact Nat.zero_le _
  | cons c cs ih =>
    simp only [splitFirst] at h
    split_ifs at h with hp
    · have h1 := Option.some.inj h
      injection h1 with h2 h3
      obtain ⟨t, ht⟩ := isPrefixOf_destruct hp
      refine ⟨?_, ?_⟩
      · rw [← h2, ← h3, ht, List.drop_left]
        simp
      · intro a' b' h'
        rw [← h2]
        exact Nat.zero_le _
    · rw [Option.map_eq_some'] at h
      obtain ⟨⟨p1, p2⟩, hsp, hf⟩ := h
      injection hf with hf1 hf2
      obtain ⟨hcs, hmin⟩ := ih hsp
      subst hf1
      subst hf2
      refine ⟨by simp [hcs, List.append_assoc], ?_⟩
      intro a' b' h'
      cases a' with
      | nil =>
        exfalso
        apply hp
        rw [show c :: cs = pat ++ b' by simpa using h']
        exact isPrefixOf_append_self _ _
      | cons a0 as =>
        have h2 : c = a0 ∧ cs = as ++ (pat ++ b') := by simpa using h'
        have h3 : cs = as ++ pat ++ b' := by rw [h2.2, List.append_assoc]
        simpa using Nat.succ_le_succ (hmin as b' h3)

lemma extract_answer_eq_none_iff (s : List Char) :
    extract_answer s = none ↔
    ¬ ∃ u v w, s = u ++ answerOpen ++ v ++ answerClose ++ w := by
  constructor
  · intro h
    rintro ⟨u, v, w, hs⟩
    cases hso : splitFirst answerOpen s with
    | none =>
      rw [splitFirst_eq_none_iff] at hso
      exact hso ⟨u, v ++ answerClose ++ w, by rw [hs]; simp [List.append_assoc]⟩
    | some p =>
      obtain ⟨u0, r0⟩ := p
      cases hsc : splitFirst answerClose r0 with
      | none =>
        rw [splitFirst_eq_none_iff] at hsc
        apply hsc
        obtain ⟨hdec, hmin⟩ := splitFirst_eq_some hso
        have hle : u0.length ≤ u.length :=
          hmin u (v ++ answerClose ++ w) (by rw [hs]; simp [List.append_assoc])
        have hp0 : u0 <+: s := ⟨answerOpen ++ r0, by rw [hdec]; simp [List.append_assoc]⟩
        have hp1 : u <+: s :=
          ⟨answerOpen ++ (v ++ answerClose ++ w), by rw [hs]; simp [List.append_assoc]⟩
        obtain ⟨d, hd⟩ := List.prefix_of_prefix_length_le hp0 hp1 hle
        have hkey : answerOpen ++ r0 = d ++ (answerOpen ++ (v ++ (answerClose ++ w))) := by
          have hu0 : u0 ++ (answerOpen ++ r0) =
              u0 ++ (d ++ (answerOpen ++ (v ++ (answerClose ++ w)))) := by
            rw [show u0 ++ (answerOpen ++ r0) = s by rw [hdec]; simp [List.append_assoc]]
            rw [show u0 ++ (d ++ (answerOpen ++ (v ++ (answerClose ++ w)))) =
                (u0 ++ d) ++ answerOpen ++ v ++ answerClose ++ w by simp [List.append_assoc]]
            rw [hd, ← hs]
          exact List.append_cancel_left hu0
        cases d with
        | nil =>
          refine ⟨v, w, ?_⟩
          have h0 : answerOpen ++ r0 = answerOpen ++ (v ++ (answerClose ++ w)) := by
            simpa using hkey
          have := List.append_cancel_left h0
          rw [this, List.append_assoc]
        | cons d0 ds =>
          have hlen : answerOpen.length ≤ ((d0 :: ds) ++ answerOpen ++ v).length := by
            simp [List.length_append]
            omega
          have hr0 : r0 = ((d0 :: ds) ++ answerOpen ++ v).drop answerOpen.length ++
              (answerClose ++ w) := by
            have h1 : answerOpen ++ r0 =
                ((d0 :: ds) ++ answerOpen ++ v) ++ (answerClose ++ w) := by
              rw [hkey]
              simp [List.append_assoc]
            have h2 := congrArg (List.drop answerOpen.length) h1
            rw [List.drop_left] at h2
            rw [h2, List.drop_append_of_le_length hlen]
          exact ⟨((d0 :: ds) ++ answerOpen ++ v).drop answerOpen.length, w,
            by rw [hr0]; simp [List.append_assoc]⟩
      | some q =>
        obtain ⟨cnt, rest2⟩ := q
        simp [extract_answer, hso, hsc] at h
  · intro hno
    cases hso : splitFirst answerOpen s with
    | none => simp [extract_answer, hso]
    | some p =>
      obtain ⟨u0, r0⟩ := p
      obtain ⟨hdec, -⟩ := splitFirst_eq_some hso
      cases hsc : splitFirst answerClose r0 with
      | none => simp [extract_answer, hso, hsc]
      | some q =>
        obtain ⟨v0, w0⟩ := q
        obtain ⟨hdec2, -⟩ := splitFirst_eq_some hsc
        exact absurd ⟨u0, v0, w0, by rw [hdec, hdec2]; simp [List.append_assoc]⟩ hno

lemma extract_answer_eq_some_of (s u v w : List Char)
    (hs : s = u ++ answerOpen ++ v ++ answerClose ++ w)
    (humin : ∀ u' r, s = u' ++ answerOpen ++ r → u.length ≤ u'.length)
    (hvmin : ∀ v' w', v ++ answerClose ++ w = v' ++ answerClose ++ w' →
      v.length ≤ v'.length) :
    extract_answer s = some (pyStrip v) := by
  cases hso : splitFirst answerOpen s with
  | none =>
    rw [splitFirst_eq_none_iff] at hso
    exact absurd ⟨u, v ++ answerClose ++ w, by rw [hs]; simp [List.append_assoc]⟩ hso
  | some p =>
    obtain ⟨u0, r0⟩ := p
    obtain ⟨hdec, hmin⟩ := splitFirst_eq_some hso
    have h1 : u0.length ≤ u.length :=
      hmin u (v ++ answerClose ++ w) (by rw [hs]; simp [List.append_assoc])
    have h2 : u.length ≤ u0.length := humin u0 r0 hdec
    have hlen : u0.length = u.length := Nat.le_antisymm h1 h2
    have e : u0 ++ (answerOpen ++ r0) = u ++ (answerOpen ++ (v ++ (answerClose ++ w))) := by
      rw [show u0 ++ (answerOpen ++ r0) = s by rw [hdec]; simp [List.append_assoc]]
      rw [hs]
      simp [List.append_assoc]
    obtain ⟨he1, he2⟩ := List.append_inj e hlen
    have hr0 : r0 = v ++ answerClose ++ w := by
      have := List.append_cancel_left he2
      rw [this, List.append_assoc]
    cases hsc : splitFirst answerClose r0 with
    | none =>
      rw [splitFirst_eq_none_iff] at hsc
      exact absurd ⟨v, w, hr0⟩ hsc
    | some q =>
      obtain ⟨v0, w0⟩ := q
      obtain ⟨hdec2, hmin2⟩ := splitFirst_eq_some hsc
      have h3 : v0.length ≤ v.length := hmin2 v w hr0
      have h4 : v.length ≤ v0.length := hvmin v0 w0 (hr0.symm.trans hdec2)
      have hlen2 : v0.length = v.length := Nat.le_antisymm h3 h4
      have e2 : v0 ++ (answerClose ++ w0) = v ++ (answerClose ++ w) := by
        rw [show v0 ++ (answerClose ++ w0) = r0 by rw [hdec2]; simp [List.append_assoc]]
        rw [hr0]
        simp [List.append_assoc]
      obtain ⟨hv0, -⟩ := List.append_inj e2 hlen2
      simp [extract_answer, hso, hsc, hv0]

lemma dropWhile_eq_self_of_all {p : Char → Bool} {l : List Char}
    (h : ∀ c ∈ l, p c = false) : l.dropWhile p = l := by
  cases l with
  | nil => rfl
  | cons c cs => simp [List.dropWhile_cons, h c (by simp)]

lemma dropWhile_append_of_all {p : Char → Bool} {v l : List Char}
    (h : ∀ c ∈ v, p c = true) : (v ++ l).dropWhile p = l.dropWhile p := by
  induction v with
  | nil => rfl
  | cons a as ih =>
    rw [List.cons_append, List.dropWhile_cons]
    simp only [h a (by simp)]
    exact ih fun c hc => h c (List.mem_cons_of_mem a hc)

lemma takeWhile_append_of_all {p : Char → Bool} {v l : List Char}
    (h : ∀ c ∈ v, p c = true) : (v ++ l).takeWhile p = v ++ l.takeWhile p := by
  induction v with
  | nil => rfl
  | cons a as ih =>
    have h1 : p a = true := h a (by simp)
    have h2 := ih fun c hc => h c (List.mem_cons_of_mem a hc)
    simp [List.takeWhile_cons, h1, h2]

lemma findBoxed_eq_some_imp {s v : List Char} (h : findBoxed s = some v) :
    (∃ u w, s = u ++ boxedOpen ++ v ++ '\x7d' :: w) ∧ ∀ c ∈ v, boxedBody c = true := by
  induction s with
  | nil => simp [findBoxed] at h
  | cons c cs ih =>
    rw [findBoxed] at h
    by_cases hp : boxedOpen.isPrefixOf (c :: cs) = true
    · rw [if_pos hp] at h
      cases hdw : ((c :: cs).drop boxedOpen.length).dropWhile boxedBody with
      | nil =>
        simp only [hdw] at h
        obtain ⟨⟨u, w, hcs⟩, hmem⟩ := ih h
        exact ⟨⟨c :: u, w, by simp [hcs]⟩, hmem⟩
      | cons d rest =>
        simp only [hdw] at h
        by_cases hd : d = '\x7d'
        · rw [if_pos hd] at h
          have hv : v = ((c :: cs).drop boxedOpen.length).takeWhile boxedBody :=
            (Option.some.inj h).symm
          obtain ⟨t, ht⟩ := isPrefixOf_destruct hp
          have hdrop : (c :: cs).drop boxedOpen.length = t := by
            rw [ht, List.drop_left]
          rw [hdrop] at hv hdw
          refine ⟨⟨[], rest, ?_⟩, ?_⟩
          · rw [ht, hv, ← hd]
            have : t.takeWhile boxedBody ++ t.dropWhile boxedBody = t :=
              List.takeWhile_append_dropWhile boxedBody t
            rw [hdw] at this
            have h3 : boxedOpen ++ (t.takeWhile boxedBody ++ d :: rest) = boxedOpen ++ t := by
              rw [this]
            simpa [List.append_assoc] using h3.symm
          · intro a ha
            rw [hv] at ha
            exact List.mem_takeWhile_imp ha
        · rw [if_neg hd] at h
          obtain ⟨⟨u, w, hcs⟩, hmem⟩ := ih h
          exact ⟨⟨c :: u, w, by simp [hcs]⟩, hmem⟩
    · rw [if_neg hp] at h
      obtain ⟨⟨u, w, hcs⟩, hmem⟩ := ih h
      exact ⟨⟨c :: u, w, by simp [hcs]⟩, hmem⟩

lemma findBoxed_eq_none_of_no_rbrace {l : List Char} (h : '\x7d' ∉ l) :
    findBoxed l = none := by
  cases hfb : findBoxed l with
  | none => rfl
  | some v =>
    obtain ⟨⟨u, w, hl⟩, -⟩ := findBoxed_eq_some_imp hfb
    exact absurd (by rw [hl]; simp) h

lemma findBoxed_eq_some_of {s : List Char} (u v w : List Char)
    (hnl : '\n' ∉ s)
    (hs : s = u ++ boxedOpen ++ v ++ '\x7d' :: w)
    (humin : ∀ u' r, s = u' ++ boxedOpen ++ r → u.length ≤ u'.length)
    (hv : '\x7d' ∉ v) :
    findBoxed s = some v := by
  induction s generalizing u with
  | nil =>
    exfalso
    have := congrArg List.length hs
    simp [List.length_append, boxedOpen] at this
    omega
  | cons c cs ih =>
    cases u with
    | nil =>
      have hs' : c :: cs = boxedOpen ++ (v ++ '\x7d' :: w) := by
        rw [hs]
        simp [List.append_assoc]
      have hp : boxedOpen.isPrefixOf (c :: cs) = true := by
        rw [hs']
        exact isPrefixOf_append_self _ _
      rw [findBoxed, if_pos hp]
      have hdrop : (c :: cs).drop boxedOpen.length = v ++ '\x7d' :: w := by
        rw [hs', List.drop_left]
      have hbody : ∀ a ∈ v, boxedBody a = true := by
        intro a ha
        have ha1 : a ≠ '\x7d' := fun hh => hv (hh ▸ ha)
        have ha2 : a ≠ '\n' := by
          intro hh
          apply hnl
          rw [hs']
          subst hh
          simp [ha]
        simp [boxedBody, ha1, ha2]
      have hdw : (v ++ '\x7d' :: w).dropWhile boxedBody = '\x7d' :: w := by
        rw [dropWhile_append_of_all hbody, List.dropWhile_cons]
        simp [boxedBody]
      have htw : (v ++ '\x7d' :: w).takeWhile boxedBody = v := by
        rw [takeWhile_append_of_all hbody, List.takeWhile_cons]
        simp [boxedBody]
      rw [hdrop, hdw]
      simp [htw]
    | cons u0 us =>
      have hcs : cs = us ++ boxedOpen ++ v ++ '\x7d' :: w := by
        have : c :: cs = u0 :: (us ++ boxedOpen ++ v ++ '\x7d' :: w) := by
          rw [hs]
          simp [List.append_assoc]
        exact (List.cons.injEq _ _ _ _ ▸ this).2
      have hp : boxedOpen.isPrefixOf (c :: cs) = false := by
        by_contra hne
        have hp2 : boxedOpen.isPrefixOf (c :: cs) = true := by
          cases hb : boxedOpen.isPrefixOf (c :: cs) with
          | true => rfl
          | false => exact absurd hb hne
        obtain ⟨t, ht⟩ := isPrefixOf_destruct hp2
        have := humin [] t (by rw [ht]; simp)
        simp at this
      have hnl' : '\n' ∉ cs := fun hh => hnl (List.mem_cons_of_mem c hh)
      have humin' : ∀ u' r, cs = u' ++ boxedOpen ++ r → us.length ≤ u'.length := by
        intro u' r hr
        have h1 : c :: cs = (c :: u') ++ boxedOpen ++ r := by simp [hr, List.append_assoc]
        have h2 := humin (c :: u') r h1
        simpa using h2
      rw [findBoxed, if_neg (by rw [hp]; simp)]
      exact ih us hnl' hcs humin'


lemma pyStrip_eq_self {l : List Char} (h : ∀ c ∈ l, isPySpace c = false) :
    pyStrip l = l := by
  unfold pyStrip
  rw [dropWhile_eq_self_of_all h]
  rw [dropWhile_eq_self_of_all fun c hc => h c (List.mem_reverse.mp hc)]
  exact List.reverse_reverse l

lemma isPySpace_eq_false_of_removedChar {c : Char} (h : removedChar c = false) :
    isPySpace c = false := by
  have h2 : (c == '$' || c == ',' || isPySpace c) = false := h
  simp only [Bool.or_eq_false_iff] at h2
  exact h2.2

/-- A string whose characters all survive the removal pass and which has no
closing brace is a fixed point of normalize_answer. -/
lemma normalize_answer_eq_self {y : List Char}
    (hy : ∀ c ∈ y, removedChar c = false) (hbr : '\x7d' ∉ y) :
    normalize_answer y = y := by
  have h1 : pyStrip y = y :=
    pyStrip_eq_self fun c hc => isPySpace_eq_false_of_removedChar (hy c hc)
  have h3 : (y.filter fun c => !(removedChar c)) = y :=
    List.filter_eq_self.mpr (by intro a ha; simp [hy a ha])
  have h4 : findBoxed y = none := findBoxed_eq_none_of_no_rbrace hbr
  simp only [normalize_answer, h1, h3, h4]

lemma mem_filtered_removedChar {x : List Char} {c : Char}
    (hc : c ∈ (pyStrip x).filter fun c => !(removedChar c)) :
    removedChar c = false := by
  have := List.of_mem_filter hc
  simpa using this

lemma newline_not_mem_filtered (x : List Char) :
    '\n' ∉ ((pyStrip x).filter fun c => !(removedChar c)) := by
  intro hc
  have := mem_filtered_removedChar hc
  simp [removedChar, isPySpace] at this

/-- compute_score as the sum of its two independent components. -/
lemma compute_score_cases (s gt : List Char) (f c : ℚ) :
    compute_score s gt f c =
      (if check_format s then f else 0) +
      (match extract_answer s with
       | some a => if normalize_answer a = normalize_answer gt then c else 0
       | none => 0) := by
  simp only [compute_score]
  cases extract_answer s with
  | none => split_ifs <;> ring
  | some a =>
    by_cases hn : normalize_answer a = normalize_answer gt <;> simp [hn]

/-! ### The claims -/

/-- C1: for every response, ground truth and pair of reward weights,
compute_score returns one of exactly four values: 0, format_reward,
correct_reward, or format_reward + correct_reward. -/
theorem compute_score_four_values (s gt : List Char) (f c : ℚ) :
    compute_score s gt f c = 0 ∨ compute_score s gt f c = f ∨
    compute_score s gt f c = c ∨ compute_score s gt f c = f + c := by
  rw [compute_score_cases]
  cases hcf : check_format s
  · cases hea : extract_answer s with
    | none =>
      left
      simp
    | some a =>
      by_cases hn : normalize_answer a = normalize_answer gt
      · right; right; left
        simp [hn]
      · left
        simp [hn]
  · cases hea : extract_answer s with
    | none =>
      right; left
      simp
    | some a =>
      by_cases hn : normalize_answer a = normalize_answer gt
      · right; right; right
        simp [hn]
      · right; left
        simp [hn]

/-- C2: check_format accepts a string exactly when the whole string,
anchored at both ends, decomposes as arbitrary content, the literal
closing-think marker, optional whitespace, the answer-open marker,
arbitrary content, the answer-close marker, and optional trailing
whitespace; in particular it rejects any string with extra non-whitespace
material outside the pattern or with missing or misordered markers. -/
theorem check_format_anchored (s : List Char) :
    check_format s = true ↔
    ∃ a w1 b w2,
      s = a ++ thinkClose ++ w1 ++ answerOpen ++ b ++ answerClose ++ w2 ∧
      w1.all isPySpace = true ∧ w2.all isPySpace = true :=
  check_format_eq_true_iff s

/-- C2 witness: a concrete well-formatted response is accepted. -/
theorem check_format_anchored_witness :
    check_format ['<', '/', 't', 'h', 'i', 'n', 'k', '>', '<', 'a', 'n', 's', 'w',
      'e', 'r', '>', '7', '<', '/', 'a', 'n', 's', 'w', 'e', 'r', '>'] = true :=
  (check_format_anchored _).mpr ⟨[], [], ['7'], [], by decide, by decide, by decide⟩

/-- C3: extract_answer returns the stripped content between the first
answer-open marker and the first subsequent answer-close marker, and
returns the absent value exactly when no open/close pair exists. -/
theorem extract_answer_first_pair (s : List Char) :
    (extract_answer s = none ↔
      ¬ ∃ u v w, s = u ++ answerOpen ++ v ++ answerClose ++ w) ∧
    (∀ u v w, s = u ++ answerOpen ++ v ++ answerClose ++ w →
      (∀ u' r, s = u' ++ answerOpen ++ r → u.length ≤ u'.length) →
      (∀ v' w', v ++ answerClose ++ w = v' ++ answerClose ++ w' →
        v.length ≤ v'.length) →
      extract_answer s = some (pyStrip v)) :=
  ⟨extract_answer_eq_none_iff s,
    fun u v w hs humin hvmin => extract_answer_eq_some_of s u v w hs humin hvmin⟩

/-- C3 witness: a minimal tag pair extracts to the empty answer, and a
tagless string extracts to the absent value. -/
theorem extract_answer_first_pair_witness :
    extract_answer ['<', 'a', 'n', 's', 'w', 'e', 'r', '>', '<', '/', 'a', 'n',
      's', 'w', 'e', 'r', '>'] = some [] ∧
    extract_answer ['4', '2'] = none := by
  constructor
  · have h := (extract_answer_first_pair ['<', 'a', 'n', 's', 'w', 'e', 'r', '>',
      '<', '/', 'a', 'n', 's', 'w', 'e', 'r', '>']).2 [] [] [] (by decide)
      (fun u' r hr => Nat.zero_le _) (fun v' w' hr => Nat.zero_le _)
    exact h.trans (by decide)
  · apply (extract_answer_first_pair ['4', '2']).1.mpr
    rintro ⟨u, v, w, h⟩
    have hl := congrArg List.length h
    simp only [answerOpen, answerClose, List.length_append, List.length_cons,
      List.length_nil] at hl
    omega

/-- C4: the two credit components are independent: with a failing format
check but a correctly normalizing extracted answer the score is exactly
correct_reward, and with a passing format check but no matching extracted
answer the score is exactly format_reward. -/
theorem compute_score_independent (s gt : List Char) (f c : ℚ) :
    (check_format s = false →
      ∀ a, extract_answer s = some a →
        normalize_answer a = normalize_answer gt → compute_score s gt f c = c) ∧
    (check_format s = true →
      (∀ a, extract_answer s = some a →
        normalize_answer a ≠ normalize_answer gt) →
      compute_score s gt f c = f) := by
  constructor
  · intro hcf a hea hn
    rw [compute_score_cases, hcf, hea]
    simp [hn]
  · intro hcf hne
    rw [compute_score_cases, hcf]
    cases hea : extract_answer s with
    | none => simp
    | some a => simp [hne a hea]

/-- C4 witness: correctness credit without format credit on a tag pair
lacking the closing-think marker, and format credit without correctness
credit on a well-formed response with the wrong answer. -/
theorem compute_score_independent_witness :
    compute_score ['<', 'a', 'n', 's', 'w', 'e', 'r', '>', '1', '<', '/', 'a',
      'n', 's', 'w', 'e', 'r', '>'] ['1'] (1/2) (1/2) = 1/2 ∧
    compute_score ['<', '/', 't', 'h', 'i', 'n', 'k', '>', '<', 'a', 'n', 's',
      'w', 'e', 'r', '>', '1', '<', '/', 'a', 'n', 's', 'w', 'e', 'r', '>']
      ['2'] (1/2) (1/2) = 1/2 := by
  constructor
  · exact (compute_score_independent _ _ _ _).1 (by decide) ['1'] (by decide)
      (by decide)
  · refine (compute_score_independent _ _ _ _).2 (by decide) ?_
    intro a ha
    have he : extract_answer ['<', '/', 't', 'h', 'i', 'n', 'k', '>', '<', 'a',
      'n', 's', 'w', 'e', 'r', '>', '1', '<', '/', 'a', 'n', 's', 'w', 'e',
      'r', '>'] = some ['1'] := by decide
    have h2 := Option.some.inj (he.symm.trans ha)
    rw [← h2]
    decide

/-- C5: normalize_answer first strips, then removes every dollar sign,
comma and whitespace character, and finally, exactly when the remaining
string contains the boxed-answer opening followed by a closing brace,
replaces the whole string by the first braced content matched non-greedily
(stopping at the first closing brace); otherwise it returns the removal
result unchanged. -/
theorem normalize_answer_boxed_step (x : List Char) :
    ((¬ ∃ u v w, ((pyStrip x).filter fun c => !(removedChar c)) =
        u ++ boxedOpen ++ v ++ '\x7d' :: w) →
      normalize_answer x = ((pyStrip x).filter fun c => !(removedChar c))) ∧
    (∀ u v w, ((pyStrip x).filter fun c => !(removedChar c)) =
        u ++ boxedOpen ++ v ++ '\x7d' :: w →
      (∀ u' r, ((pyStrip x).filter fun c => !(removedChar c)) =
        u' ++ boxedOpen ++ r → u.length ≤ u'.length) →
      '\x7d' ∉ v →
      normalize_answer x = v) := by
  constructor
  · intro hno
    have hfb : findBoxed ((pyStrip x).filter fun c => !(removedChar c)) = none := by
      cases hfb2 : findBoxed ((pyStrip x).filter fun c => !(removedChar c)) with
      | none => rfl
      | some v =>
        obtain ⟨⟨u, w, hdec⟩, -⟩ := findBoxed_eq_some_imp hfb2
        exact absurd ⟨u, v, w, hdec⟩ hno
    simp only [normalize_answer, hfb]
  · intro u v w hdec humin hv
    have hfb : findBoxed ((pyStrip x).filter fun c => !(removedChar c)) = some v :=
      findBoxed_eq_some_of u v w (newline_not_mem_filtered x) hdec humin hv
    simp only [normalize_answer, hfb]

/-- C5 witness: a plain answer is left as the removal result, and a boxed
answer is replaced by its braced content. -/
theorem normalize_answer_boxed_step_witness :
    normalize_answer ['5'] = ['5'] ∧
    normalize_answer ['\\', 'b', 'o', 'x', 'e', 'd', '\x7b', '1', '2', '\x7d'] =
      ['1', '2'] := by
  constructor
  · have hno : ¬ ∃ u v w, ((pyStrip ['5']).filter fun c => !(removedChar c)) =
        u ++ boxedOpen ++ v ++ '\x7d' :: w := by
      rintro ⟨u, v, w, hh⟩
      rw [show ((pyStrip ['5']).filter fun c => !(removedChar c)) = ['5'] from
        by decide] at hh
      have hl := congrArg List.length hh
      simp only [boxedOpen, List.length_append, List.length_cons,
        List.length_nil] at hl
      omega
    exact ((normalize_answer_boxed_step ['5']).1 hno).trans (by decide)
  · exact (normalize_answer_boxed_step _).2 [] ['1', '2'] [] (by decide)
      (fun u' r hr => Nat.zero_le _) (by decide)

/-- C6: normalize_answer is idempotent. -/
theorem normalize_answer_idempotent (x : List Char) :
    normalize_answer (normalize_answer x) = normalize_answer x := by
  have hmem : ∀ c ∈ ((pyStrip x).filter fun c => !(removedChar c)),
      removedChar c = false := fun c hc => mem_filtered_removedChar hc
  cases hfb : findBoxed ((pyStrip x).filter fun c => !(removedChar c)) with
  | none =>
    have hnx : normalize_answer x = ((pyStrip x).filter fun c => !(removedChar c)) := by
      simp only [normalize_answer, hfb]
    rw [hnx]
    have h1 : pyStrip ((pyStrip x).filter fun c => !(removedChar c)) =
        ((pyStrip x).filter fun c => !(removedChar c)) :=
      pyStrip_eq_self fun c hc => isPySpace_eq_false_of_removedChar (hmem c hc)
    have h3 : (((pyStrip x).filter fun c => !(removedChar c)).filter
        fun c => !(removedChar c)) = ((pyStrip x).filter fun c => !(removedChar c)) :=
      List.filter_eq_self.mpr (by intro a ha; simp [hmem a ha])
    simp only [normalize_answer, h1, h3, hfb]
  | some content =>
    have hnx : normalize_answer x = content := by
      simp only [normalize_answer, hfb]
    obtain ⟨⟨u, w, hdec⟩, hbody⟩ := findBoxed_eq_some_imp hfb
    have hcm : ∀ c ∈ content, removedChar c = false := by
      intro c hc
      apply hmem
      rw [hdec]
      simp [hc]
    have hbr : '\x7d' ∉ content := by
      intro hc
      have hb := hbody _ hc
      simp [boxedBody] at hb
    rw [hnx]
    exact normalize_answer_eq_self hcm hbr

/-- C7: the concrete response with an empty reasoning section and a boxed
answer 7 scores exactly 1 against ground truth 7 under the default
weights. -/
theorem compute_score_scenario_boxed_seven :
    compute_score
      ['<', '/', 't', 'h', 'i', 'n', 'k', '>', '<', 'a', 'n', 's', 'w', 'e',
       'r', '>', '\\', 'b', 'o', 'x', 'e', 'd', '\x7b', '7', '\x7d',
       '<', '/', 'a', 'n', 's', 'w', 'e', 'r', '>'] ['7'] (1/2) (1/2) = 1 := by
  have h1 : check_format
      ['<', '/', 't', 'h', 'i', 'n', 'k', '>', '<', 'a', 'n', 's', 'w', 'e',
       'r', '>', '\\', 'b', 'o', 'x', 'e', 'd', '\x7b', '7', '\x7d',
       '<', '/', 'a', 'n', 's', 'w', 'e', 'r', '>'] = true := by decide
  have h2 : extract_answer
      ['<', '/', 't', 'h', 'i', 'n', 'k', '>', '<', 'a', 'n', 's', 'w', 'e',
       'r', '>', '\\', 'b', 'o', 'x', 'e', 'd', '\x7b', '7', '\x7d',
       '<', '/', 'a', 'n', 's', 'w', 'e', 'r', '>'] =
      some ['\\', 'b', 'o', 'x', 'e', 'd', '\x7b', '7', '\x7d'] := by decide
  have h3 : normalize_answer ['\\', 'b', 'o', 'x', 'e', 'd', '\x7b', '7', '\x7d'] =
      normalize_answer ['7'] := by decide
  rw [compute_score_cases, h1, h2]
  simp [h3]
  norm_num

/-- C8: a bare correct answer with no tags scores exactly 0: the format
check fails and extraction is absent, so no correctness credit is granted
even though the raw text equals the ground truth. -/
theorem compute_score_scenario_no_tags :
    compute_score ['4', '2'] ['4', '2'] (1/2) (1/2) = 0 := by
  have h1 : check_format ['4', '2'] = false := by decide
  have h2 : extract_answer ['4', '2'] = none := by decide
  rw [compute_score_cases, h1, h2]
  simp

/-- C9: all four functions are total on every string, including the empty
one: the format check is a boolean, extraction yields a value or the absent
marker, normalization and scoring always produce results, and a double
mismatch yields the zero score. -/
theorem scoring_functions_total (s gt : List Char) (f c : ℚ) :
    (check_format s = true ∨ check_format s = false) ∧
    ((∃ a, extract_answer s = some a) ∨ extract_answer s = none) ∧
    (∃ r, normalize_answer s = r) ∧
    (∃ q, compute_score s gt f c = q) ∧
    (check_format s = false → extract_answer s = none →
      compute_score s gt f c = 0) := by
  refine ⟨?_, ?_, ⟨_, rfl⟩, ⟨_, rfl⟩, ?_⟩
  · cases check_format s
    · right
      rfl
    · left
      rfl
  · cases extract_answer s with
    | none =>
      right
      rfl
    | some a =>
      left
      exact ⟨a, rfl⟩
  · intro hcf hea
    rw [compute_score_cases, hcf, hea]
    simp

/-- C9 witness: the empty string resolves to false, absent, and a zero
score. -/
theorem scoring_functions_total_witness :
    check_format [] = false ∧ extract_answer [] = none ∧
    compute_score [] [] (1/2) (1/2) = 0 :=
  ⟨by decide, by decide,
    (scoring_functions_total [] [] (1/2) (1/2)).2.2.2.2 (by decide) (by decide)⟩

/-- C10: a passing format check guarantees an extractable answer, and a
score of exactly format_reward under the default weights can only mean the
extracted answer mismatched the ground truth, never that extraction
failed. -/
theorem check_format_implies_extractable (s gt : List Char) :
    (check_format s = true → ∃ a, extract_answer s = some a) ∧
    (check_format s = true → compute_score s gt (1/2) (1/2) = 1/2 →
      ∃ a, extract_answer s = some a ∧
        normalize_answer a ≠ normalize_answer gt) := by
  have hmain : check_format s = true → ∃ a, extract_answer s = some a := by
    intro hcf
    obtain ⟨a, w1, b, w2, hs, h1, h2⟩ := (check_format_eq_true_iff s).mp hcf
    have hne : extract_answer s ≠ none := by
      intro hnone
      rw [extract_answer_eq_none_iff] at hnone
      apply hnone
      exact ⟨a ++ thinkClose ++ w1, b, w2, by rw [hs]⟩
    cases hea : extract_answer s with
    | none => exact absurd hea hne
    | some a0 => exact ⟨a0, rfl⟩
  refine ⟨hmain, ?_⟩
  intro hcf hscore
  obtain ⟨a, hea⟩ := hmain hcf
  refine ⟨a, hea, ?_⟩
  intro heq
  rw [compute_score_cases, hcf, hea] at hscore
  simp only [heq, if_true, if_pos] at hscore
  norm_num at hscore

/-- C10 witness: a well-formed response whose answer mismatches the ground
truth has an extractable mismatching answer. -/
theorem check_format_implies_extractable_witness :
    ∃ a, extract_answer ['<', '/', 't', 'h', 'i', 'n', 'k', '>', '<', 'a', 'n',
      's', 'w', 'e', 'r', '>', '1', '<', '/', 'a', 'n', 's', 'w', 'e', 'r', '>'] =
      some a ∧ normalize_answer a ≠ normalize_answer ['2'] := by
  apply (check_format_implies_extractable _ ['2']).2 (by decide)
  have h1 : check_format ['<', '/', 't', 'h', 'i', 'n', 'k', '>', '<', 'a', 'n',
      's', 'w', 'e', 'r', '>', '1', '<', '/', 'a', 'n', 's', 'w', 'e', 'r',
      '>'] = true := by decide
  have h2 : extract_answer ['<', '/', 't', 'h', 'i', 'n', 'k', '>', '<', 'a', 'n',
      's', 'w', 'e', 'r', '>', '1', '<', '/', 'a', 'n', 's', 'w', 'e', 'r',
      '>'] = some ['1'] := by decide
  rw [compute_score_cases, h1, h2]
  simp [show normalize_answer ['1'] ≠ normalize_answer ['2'] from by decide]
